import Mathlib

/-!
A verification development for the `zeroe` text-perturbation engine
(`src/zeroe/attacks/simple_attacks.py`).

The Python module is shallowly embedded as follows.

* Words and tokens are `List Char`; a tokenized sentence is `List (List Char)`.
  Tokenization and detokenization are external collaborators (nltk / Treebank)
  and are out of scope; the engine is modelled from token sequence to token
  sequence.
* Randomness is injected explicitly.  `np.random.uniform(0, 1)` draws become a
  stream `u : Nat → ℚ` of rationals (with `0 ≤ u n` and `u n < 1` available as
  hypotheses where they matter); `np.random.choice` / `random.randint` draws
  become a stream of naturals reduced modulo the relevant length;
  `np.random.shuffle` becomes a draw-driven selection permutation
  (`shuffleString`); `random.random()` becomes a single rational draw.
* The two lookup resources `en.key` and `en.natural` are data files that are
  not part of the sources; per the spec they are finite maps from a lowercase
  character (resp. a word) to a list of candidates.  They are modelled as
  parameters `NN, typos : _ → Option (List Char)`.
* The `intruders` transform contains an unbounded retry loop, which is made
  total with an explicit fuel argument; `none` means the fuel ran out, i.e.
  the Python loop has not terminated within that many outer iterations.
-/

/-- The closed set of attack kinds (`class SimpleAttack(Enum)`). -/
inductive SimpleAttack where
  | SWAP_FULL
  | SWAP_INNER
  | INTRUDE
  | DISEMVOWEL
  | TRUNCATE
  | TYPO_KEYBOARD
  | TYPO_NATURAL
  | SEGMENT
deriving DecidableEq, Repr

/-- `SimpleAttack.fromString` (the `if`/`elif` chain); the Python function
raises `ValueError("Unknown attack method")` on the final `else`, modelled
as `none`. -/
def SimpleAttack.fromString (s : String) : Option SimpleAttack :=
  if s = "full-swap" then some .SWAP_FULL
  else if s = "inner-swap" then some .SWAP_INNER
  else if s = "intrude" then some .INTRUDE
  else if s = "disemvowel" then some .DISEMVOWEL
  else if s = "truncate" then some .TRUNCATE
  else if s = "keyboard-typo" then some .TYPO_KEYBOARD
  else if s = "natural-typo" then some .TYPO_NATURAL
  else if s = "segment" then some .SEGMENT
  else none

/-- Errors of the engine facade: `UnknownAttack` for an unrecognized method
string, `InvalidLevel` for a perturbation level outside `[0, 1]`. -/
inductive PerturbError where
  | unknownAttack
  | invalidLevel
deriving DecidableEq, Repr

/-! ## Word transforms -/

/-- One selection step of the draw-driven shuffle: draw `r`, pick the element
at position `r % length`, move it to the front, recurse on the rest.  `fuel`
is the length of the list (each step removes exactly one element), making the
recursion structural.  This models one outcome of `np.random.shuffle`: every
draw stream yields a permutation of the input, and every permutation of the
input is reachable by some draw stream. -/
def shuffleSel : List Nat → Nat → List Char → List Char
  | _, 0, _ => []
  | _, _ + 1, [] => []
  | [], _ + 1, x :: xs => x :: xs
  | r :: rs, fuel + 1, x :: xs =>
    let l := x :: xs
    let j := r % l.length
    let y := l.getD j x
    let rest := l.take j ++ l.drop (j + 1)
    y :: shuffleSel rs fuel rest

/-- `__shuffle_string__` of `swap`: shuffle the characters of the word,
driven by the draw list `rs`. -/
def shuffleString (rs : List Nat) (w : List Char) : List Char :=
  shuffleSel rs w.length w

/-- One shuffle attempt of `swap`: the whole word for `inner = false`,
`word[0] + shuffle(word[1:-1]) + word[-1]` for `inner = true`. -/
def shuffleOnce (inner : Bool) (w : List Char) (rs : List Nat) : List Char :=
  if inner then
    match w with
    | x :: y :: rest =>
      x :: (shuffleString rs ((y :: rest).dropLast) ++ [(y :: rest).getLastD y])
    | w' => w'
  else shuffleString rs w

/-- The retry loop of `swap`: `while perturbed == word`, at most 10 shuffle
attempts (`tries > 10` breaks), each attempt consuming the next draw list of
`rss`; if all attempts reproduce the word, the word itself is returned. -/
def swapRetry (inner : Bool) (word : List Char) : Nat → List (List Nat) → List Char
  | 0, _ => word
  | fuel + 1, rss =>
    let perturbed := shuffleOnce inner word (rss.headD [])
    if perturbed = word then swapRetry inner word fuel rss.tail
    else perturbed

/-- `swap(word, inner)`: no-op when `len(word) < 3 or inner and len(word) < 4`
(Python precedence: `or` binds weaker than `and`); otherwise up to 10
re-shuffles until the result differs from the input. -/
def swap (word : List Char) (inner : Bool) (rss : List (List Nat)) : List Char :=
  if word.length < 3 ∨ (inner = true ∧ word.length < 4) then word
  else swapRetry inner word 10 rss

/-- The vowel string `"AEIOU"` (parameter `vocals` of `disemvoweling`). -/
def vocals : List Char := ['A', 'E', 'I', 'O', 'U']

/-- `disemvoweling(word)`: no-op for `len(word) < 3`; counts the characters
whose uppercase form is a vowel; if all characters are vowels, no-op;
otherwise removes every vowel, case-insensitively
(`re.sub('[AEIOU]', '', word, flags=IGNORECASE)`). -/
def disemvoweling (word : List Char) : List Char :=
  if word.length < 3 then word
  else if word.countP (fun c => vocals.contains c.toUpper) = word.length then word
  else word.filter (fun c => !(vocals.contains c.toUpper))

/-- The claim's / spec sentence's own wording, for comparison: "returns w with
exactly the occurrences of the vowels A, E, I, O, U (case-insensitive)
removed". -/
def disemvowelSpec (word : List Char) : List Char :=
  word.filter (fun c => !(vocals.contains c.toUpper))

/-- "w consists entirely of vowels", as the claim words it. -/
def allVowels (word : List Char) : Prop :=
  ∀ c ∈ word, vocals.contains c.toUpper

instance (word : List Char) : Decidable (allVowels word) := by
  unfold allVowels; infer_instance

/-- The loop of `truncating`: `while len(chars) > minlen and tmp_cutoff > 0`,
drop the last character and decrement the cutoff. -/
def truncLoop (minlen : Nat) : Nat → List Char → List Char
  | 0, chars => chars
  | c + 1, chars =>
    if minlen < chars.length then truncLoop minlen c chars.dropLast
    else chars

/-- `truncating(word, minlen=3, cutoff=1)`. -/
def truncating (word : List Char) (minlen cutoff : Nat) : List Char :=
  truncLoop minlen cutoff word

/-- Python's `string.punctuation`: the ASCII characters with codes 33–47,
58–64, 91–96 and 123–126. -/
def punctuationChars : List Char :=
  ((List.range 128).map Char.ofNat).filter (fun c =>
    (33 ≤ c.toNat && c.toNat ≤ 47) || (58 ≤ c.toNat && c.toNat ≤ 64) ||
    (91 ≤ c.toNat && c.toNat ≤ 96) || (123 ≤ c.toNat && c.toNat ≤ 126))

/-- Python's substring test `w in s` on strings. -/
def isSubstringOf (w s : List Char) : Bool :=
  (List.range (s.length + 1)).any (fun i => (s.drop i).take w.length == w)

/-- The inner scan of `intruders`: `i = 1; while i < len(chars)`, insert the
punctuation character before position `i` with probability
`uniform(0,1) < level` (then `i += 2`), else `i += 1`.  `step` indexes the
uniform-draw stream `u`; the final `step` is returned so the outer loop can
continue the stream. -/
def intrudeScan (level : ℚ) (u : Nat → ℚ) (punct : Char) (chars : List Char)
    (i : Nat) (step : Nat) : List Char × Nat :=
  if h : i < chars.length then
    if u step < level then
      intrudeScan level u punct (chars.take i ++ punct :: chars.drop i) (i + 2) (step + 1)
    else
      intrudeScan level u punct chars (i + 1) (step + 1)
  else (chars, step)
termination_by chars.length - i
decreasing_by
  · simp only [List.length_append, List.length_take, List.length_cons, List.length_drop]
    omega
  · omega

/-- The outer `while perturbed == word` loop of `intruders`, with explicit
fuel: `none` means the Python loop has not produced a result within `fuel`
outer iterations (the source loop is unbounded). -/
def intrudersLoop (level : ℚ) (u : Nat → ℚ) (punct : Char) :
    Nat → List Char → List Char → Nat → Option (List Char)
  | 0, _, _, _ => none
  | fuel + 1, orig, chars, step =>
    let scanned := intrudeScan level u punct chars 1 step
    if scanned.1 = orig then intrudersLoop level u punct fuel orig scanned.1 scanned.2
    else some scanned.1

/-- `intruders(word, perturbation_level)`: the punctuation intruder `punct`
is drawn up front (`random.choice(string.punctuation)`); words that are a
substring of `string.punctuation` or have length < 2 are returned unchanged;
length-2 words get the intruder between their two characters; longer words
enter the retry-until-changed scan loop. -/
def intruders (word : List Char) (level : ℚ) (u : Nat → ℚ) (punct : Char)
    (fuel : Nat) : Option (List Char) :=
  if isSubstringOf word punctuationChars || word.length < 2 then some word
  else if word.length = 2 then some (word.take 1 ++ punct :: word.drop 1)
  else intrudersLoop level u punct fuel word word 0

/-- `key(word, probability=1.0)`: return the word when
`random.random() > probability`; otherwise pick a random position `i`, and if
the character at `i` is a key of the keyboard-neighbor table `NN` (as-is, not
lowered), replace it by a random entry of `NN[char.lower()]`.  The source
line `if caps: word[i].upper()` discards its result and therefore has no
effect, which is mirrored here by not using `caps`.  An empty word would make
Python's `randint(0, -1)` raise; it is returned unchanged here. -/
def key (NN : Char → Option (List Char)) (word : List Char) (probability : ℚ)
    (rr : ℚ) (ipick npick : Nat) : List Char :=
  if rr > probability then word
  else if word.length = 0 then word
  else
    let i := ipick % word.length
    let char := word.getD i ' '
    let caps := char.isUpper
    match NN char with
    | none => word
    | some _ =>
      let lst := (NN char.toLower).getD []
      let repl := lst.getD (npick % lst.length) ' '
      let word2 := word.set i repl
      -- `if caps: word[i].upper()`: the computed value is discarded in the
      -- source, so `caps` deliberately does not influence the result.
      let _ := caps
      word2

/-- `natural(word, precentage=1.0)`: return the word when
`random.random() > precentage`; otherwise, if the word is a key of the
natural-typo table, replace it by a random entry of its variant list.  An
empty variant list would make Python's `randint(0, -1)` raise; it yields the
`getD` default here. -/
def natural (typos : List Char → Option (List (List Char))) (word : List Char)
    (precentage : ℚ) (rr : ℚ) (npick : Nat) : List Char :=
  if rr > precentage then word
  else
    match typos word with
    | some lst => lst.getD (npick % lst.length) []
    | none => word

/-! ## Segmenter -/

/-- The token loop of `segmentation`: for each token, with probability
`uniform(0,1) < probability` append it to the pending buffer; otherwise emit
`buffer + token` and reset the buffer.  After the scan a non-empty buffer is
emitted as a final token. -/
def segLoop (probability : ℚ) (u : Nat → ℚ) :
    Nat → List Char → List (List Char) → List (List Char)
  | _, buffer, [] => if buffer ≠ [] then [buffer] else []
  | step, buffer, w :: ws =>
    if u step < probability then segLoop probability u (step + 1) (buffer ++ w) ws
    else (buffer ++ w) :: segLoop probability u (step + 1) [] ws

/-- `segmentation(text, probability)` at the token level (tokenization and
detokenization are external). -/
def segmentationTokens (probability : ℚ) (u : Nat → ℚ)
    (tokens : List (List Char)) : List (List Char) :=
  segLoop probability u 0 [] tokens

/-! ## Budgeted selector and engine facade -/

/-- Final state of the selection loop of `simple_perturb`: the token list
`words`, the remaining candidate pool `word_indexes`, the final
`perturbed_words` count, and the list of positions attempted, in order (one
entry per loop iteration that attempted a mutation). -/
structure SelResult where
  words : List (List Char)
  pool : List Nat
  count : Nat
  attempted : List Nat
deriving DecidableEq, Repr

/-- The `while perturbed_words < perturb_target` loop of `simple_perturb`.
`τ step w` is the transformed word produced by the selected transform at loop
iteration `step` (the transforms consume their own randomness; the loop is
parametrized by their outcomes).  `pick step % pool.length` models
`np.random.choice(word_indexes)`; the chosen value is removed from the pool
with `word_indexes.remove(index)` *before* the transform is applied, and the
count grows by `1 if perturbed_word != word else 0`.  Each iteration removes
one pool element, so the loop runs at most `pool.length` times; `fuel` is
instantiated with `pool.length`, making that bound explicit and the recursion
structural (the `fuel = 0` case can then only be reached with an empty pool,
where it agrees with the emergency exit). -/
def simplePerturbLoop (τ : Nat → List Char → List Char) (pick : Nat → Nat)
    (target : ℚ) : Nat → List Nat → List (List Char) → Nat → Nat → SelResult
  | 0, pool, words, count, _ => ⟨words, pool, count, []⟩
  | fuel + 1, pool, words, count, step =>
    if (count : ℚ) < target then
      if pool.isEmpty then ⟨words, pool, count, []⟩
      else
        let j := pick step % pool.length
        let index := pool.getD j 0
        let pool2 := pool.erase index
        let word := words.getD index []
        let pw := τ step word
        let words2 := words.set index pw
        let count2 := count + (if pw = word then 0 else 1)
        let r := simplePerturbLoop τ pick target fuel pool2 words2 count2 (step + 1)
        ⟨r.words, r.pool, r.count, index :: r.attempted⟩
    else ⟨words, pool, count, []⟩

/-- The Budgeted Selector over a token list: candidate pool
`list(range(0, len(words)))`, budget `perturb_target = len(words) *
perturbation_level`, initial count 0. -/
def budgetedSelect (τ : Nat → List Char → List Char) (pick : Nat → Nat)
    (level : ℚ) (tokens : List (List Char)) : SelResult :=
  simplePerturbLoop τ pick ((tokens.length : ℚ) * level) tokens.length
    (List.range tokens.length) tokens 0 0

/-- `simple_perturb(text, method, perturbation_level)` at the token level:
convert the method string (`UnknownAttack` when unrecognized), validate
`0 <= perturbation_level <= 1` (`InvalidLevel` otherwise), handle `SEGMENT`
separately, and otherwise run the Budgeted Selector with the selected
transform; `τ`, `pick` and `u` inject the randomness consumed by the
transforms, the pool draws and the segmenter. -/
def simple_perturb (tokens : List (List Char)) (method : String) (level : ℚ)
    (τ : Nat → List Char → List Char) (pick : Nat → Nat) (u : Nat → ℚ) :
    Except PerturbError (List (List Char)) :=
  match SimpleAttack.fromString method with
  | none => .error .unknownAttack
  | some m =>
    if ¬(0 ≤ level ∧ level ≤ 1) then .error .invalidLevel
    else if m = .SEGMENT then .ok (segmentationTokens level u tokens)
    else .ok (budgetedSelect τ pick level tokens).words

/-- The randomness consumed by one transform application inside the
dispatcher of `simple_perturb` (lines 80–95). -/
structure RandDraws where
  rr : ℚ
  ipick : Nat
  npick : Nat
  swapDraws : List (List Nat)
  punct : Char
  uniforms : Nat → ℚ
  intrudeFuel : Nat

/-- The `if method == ...` transform dispatch of `simple_perturb` for one
selected word.  `key` and `natural` are called as `key(word)` and
`natural(word)`, without a probability argument, so their gates run with the
default `1.0`; `intruders` receives the call's `perturbation_level` and may
diverge (`none` = fuel exhausted); `SEGMENT` never reaches this dispatch. -/
def dispatch (NN : Char → Option (List Char))
    (typos : List Char → Option (List (List Char))) (o : RandDraws)
    (m : SimpleAttack) (level : ℚ) (word : List Char) : Option (List Char) :=
  match m with
  | .SWAP_FULL => some (swap word false o.swapDraws)
  | .SWAP_INNER => some (swap word true o.swapDraws)
  | .INTRUDE => intruders word level o.uniforms o.punct o.intrudeFuel
  | .DISEMVOWEL => some (disemvoweling word)
  | .TRUNCATE => some (truncating word 3 1)
  | .TYPO_KEYBOARD => some (key NN word 1 o.rr o.ipick o.npick)
  | .TYPO_NATURAL => some (natural typos word 1 o.rr o.npick)
  | .SEGMENT => none

/-- Modelled from the spec: a one-entry keyboard-neighbor table in the format
of the `en.key` resource (which is not among the sources) — a lowercase
character mapped to its ordered list of adjacent-key characters. -/
def NNexample : Char → Option (List Char) := fun c =>
  if c = 'h' then some ['g', 'j'] else none

/-- Modelled from the spec: a one-entry natural-typo table in the format of
the `en.natural` resource (not among the sources) — a word mapped to its
ordered list of attested misspellings. -/
def typosExample : List Char → Option (List (List Char)) := fun w =>
  if w = ['t', 'h', 'e'] then some [['t', 'e', 'h']] else none

/-! ## Theorems -/

theorem segLoop_flatten (p : ℚ) (u : Nat → ℚ) (ws : List (List Char)) :
    ∀ (step : Nat) (buffer : List Char),
      (segLoop p u step buffer ws).flatten = buffer ++ ws.flatten := by
  induction ws with
  | nil =>
    intro step buffer
    by_cases h : buffer = [] <;> simp [segLoop, h]
  | cons w ws ih =>
    intro step buffer
    by_cases h : u step < p <;> simp [segLoop, h, ih, List.append_assoc]

/-- C3: for every input token sequence and every outcome of the per-token
random merge decisions, concatenating the Segmenter's output tokens in order
equals concatenating the input tokens in order: segmentation deletes only
token boundaries and neither creates nor destroys any character, including
at the final emission of a non-empty trailing buffer. -/
theorem segmentation_preserves_chars (p : ℚ) (u : Nat → ℚ)
    (tokens : List (List Char)) :
    (segmentationTokens p u tokens).flatten = tokens.flatten := by
  simpa using segLoop_flatten p u tokens 0 []

/-- C4 counterexample: the word "be" is not all-vowel, so the claim says
`disemvoweling "be" = "b"`; the code's `len(word) < 3` guard returns "be"
unchanged instead. -/
theorem disemvoweling_claim_false_at_be :
    ¬ allVowels ['b', 'e'] ∧ disemvowelSpec ['b', 'e'] = ['b'] ∧
      disemvoweling ['b', 'e'] = ['b', 'e'] := by
  decide

/-- C4 (amended): for every word w with |w| ≥ 3, `disemvoweling` returns w
with exactly the occurrences of the vowels A, E, I, O, U (case-insensitive)
removed, unless w consists entirely of vowels, in which case it returns w
unchanged; words with |w| < 3 are returned unchanged. -/
theorem disemvoweling_spec (w : List Char) :
    (w.length < 3 → disemvoweling w = w) ∧
    (3 ≤ w.length → allVowels w → disemvoweling w = w) ∧
    (3 ≤ w.length → ¬ allVowels w → disemvoweling w = disemvowelSpec w) := by
  refine ⟨fun h => by simp [disemvoweling, h], fun h3 hall => ?_, fun h3 hnall => ?_⟩
  · have hc : w.countP (fun c => vocals.contains c.toUpper) = w.length :=
      List.countP_eq_length.mpr (fun a ha => by simpa using hall a ha)
    rw [disemvoweling, if_neg (by omega), if_pos hc]
  · have hc : w.countP (fun c => vocals.contains c.toUpper) ≠ w.length := by
      intro hc
      exact hnall (fun a ha => by simpa using List.countP_eq_length.mp hc a ha)
    rw [disemvoweling, if_neg (by omega), if_neg hc]
    rfl

/-- C4 witness: "bee" has length ≥ 3 and is not all-vowel, and loses exactly
its vowels. -/
theorem disemvoweling_spec_witness :
    disemvoweling ['b', 'e', 'e'] = disemvowelSpec ['b', 'e', 'e'] ∧
      disemvowelSpec ['b', 'e', 'e'] = ['b'] :=
  ⟨(disemvoweling_spec ['b', 'e', 'e']).2.2 (by decide) (by decide), by decide⟩

theorem shuffleSel_perm (rs : List Nat) (fuel : Nat) (l : List Char)
    (h : l.length ≤ fuel) : (shuffleSel rs fuel l).Perm l := by
  induction fuel generalizing rs l with
  | zero =>
    have : l = [] := List.length_eq_zero.mp (Nat.le_zero.mp h)
    subst this
    simp [shuffleSel]
  | succ n ih =>
    match rs, l with
    | _, [] => simp [shuffleSel]
    | [], x :: xs => simp [shuffleSel]
    | r :: rs', x :: xs =>
      simp only [shuffleSel]
      have hj : r % (x :: xs).length < (x :: xs).length :=
        Nat.mod_lt _ (by simp)
      have hy : (x :: xs).getD (r % (x :: xs).length) x = (x :: xs)[r % (x :: xs).length] := by
        rw [List.getD_eq_getElem?_getD, List.getElem?_eq_getElem hj]
        rfl
      have hj' : r % (x :: xs).length < xs.length + 1 := by
        simpa using hj
      have hb : (x :: xs).length = xs.length + 1 := by simp
      have hrest : ((x :: xs).take (r % (x :: xs).length) ++
          (x :: xs).drop (r % (x :: xs).length + 1)).length = xs.length := by
        simp only [List.length_append, List.length_take, List.length_drop]
        omega
      have hn : xs.length ≤ n := by
        simpa using h
      have hperm := ih rs' ((x :: xs).take (r % (x :: xs).length) ++
          (x :: xs).drop (r % (x :: xs).length + 1)) (by omega)
      refine (hperm.cons _).trans ?_
      rw [hy]
      have hmid := (@List.perm_middle _ ((x :: xs)[r % (x :: xs).length])
        ((x :: xs).take (r % (x :: xs).length))
        ((x :: xs).drop (r % (x :: xs).length + 1))).symm
      refine hmid.trans ?_
      rw [← List.drop_eq_getElem_cons hj, List.take_append_drop]

/-- `shuffleString` permutes the characters of the word, for every outcome of
the draws. -/
theorem shuffleString_perm (rs : List Nat) (w : List Char) :
    (shuffleString rs w).Perm w :=
  shuffleSel_perm rs w.length w le_rfl

theorem swapRetry_full_perm (word : List Char) (fuel : Nat)
    (rss : List (List Nat)) : (swapRetry false word fuel rss).Perm word := by
  induction fuel generalizing rss with
  | zero => simp [swapRetry]
  | succ n ih =>
    simp only [swapRetry]
    by_cases h : shuffleOnce false word (rss.headD []) = word
    · simp only [h, if_pos rfl]
      exact ih rss.tail
    · rw [if_neg h]
      exact shuffleString_perm _ word

/-- C5: for every word w with |w| ≥ 3 and every outcome of the bounded
shuffle retries, `swap(w, inner=False)` returns a character permutation of w
(same multiset of characters, hence the same length), and for every word with
|w| < 3 it returns w unchanged. -/
theorem swap_full_perm (w : List Char) (rss : List (List Nat)) :
    (3 ≤ w.length → (swap w false rss).Perm w) ∧
      (w.length < 3 → swap w false rss = w) := by
  constructor
  · intro h3
    rw [swap, if_neg (by simp; omega)]
    exact swapRetry_full_perm w 10 rss
  · intro h3
    rw [swap, if_pos (Or.inl h3)]

/-- C5 witness: a concrete run on "abc". -/
theorem swap_full_perm_witness :
    (swap ['a', 'b', 'c'] false [[1, 0]]).Perm ['a', 'b', 'c'] ∧
      swap ['a', 'b'] false [[1, 0]] = ['a', 'b'] :=
  ⟨(swap_full_perm ['a', 'b', 'c'] [[1, 0]]).1 (by decide),
   (swap_full_perm ['a', 'b'] [[1, 0]]).2 (by decide)⟩

theorem simplePerturbLoop_budget (τ : Nat → List Char → List Char)
    (pick : Nat → Nat) (target : ℚ) :
    ∀ (fuel : Nat) (pool : List Nat) (words : List (List Char)) (count step : Nat),
      pool.length ≤ fuel → count ≤ Nat.ceil target →
      (target ≤ ((simplePerturbLoop τ pick target fuel pool words count step).count : ℚ) ∨
        (simplePerturbLoop τ pick target fuel pool words count step).pool = []) ∧
      (simplePerturbLoop τ pick target fuel pool words count step).count ≤ Nat.ceil target := by
  intro fuel
  induction fuel with
  | zero =>
    intro pool words count step hf hc
    have hpool : pool = [] := List.length_eq_zero.mp (Nat.le_zero.mp hf)
    subst hpool
    exact ⟨Or.inr rfl, hc⟩
  | succ n ih =>
    intro pool words count step hf hc
    by_cases hlt : (count : ℚ) < target
    · by_cases hp : pool.isEmpty
      · simp only [simplePerturbLoop, if_pos hlt, if_pos hp]
        exact ⟨Or.inr (List.isEmpty_iff.mp hp), hc⟩
      · have hlen : 0 < pool.length := by
          cases pool with
          | nil => simp at hp
          | cons a l => simp
        have hj : pick step % pool.length < pool.length := Nat.mod_lt _ hlen
        have hmem : pool.getD (pick step % pool.length) 0 ∈ pool := by
          rw [List.getD_eq_getElem?_getD, List.getElem?_eq_getElem hj]
          exact List.getElem_mem hj
        have herase : (pool.erase (pool.getD (pick step % pool.length) 0)).length =
            pool.length - 1 := List.length_erase_of_mem hmem
        have hc2 : ∀ b : Nat, b ≤ 1 → count + b ≤ Nat.ceil target := by
          intro b hb
          have : count < Nat.ceil target := Nat.lt_ceil.mpr hlt
          omega
        simp only [simplePerturbLoop, if_pos hlt, if_neg hp]
        exact ih _ _ _ _ (by omega) (hc2 _ (by split <;> omega))
    · simp only [simplePerturbLoop, if_neg hlt]
      exact ⟨Or.inl (le_of_not_lt hlt), hc⟩

/-- C1 (amended): the Budgeted Selector computes its budget as
`target = token_count × level` with no rounding, and stops attempting further
mutations exactly when the count of successfully changed words first reaches
or exceeds that target — i.e. at `⌈level × token_count⌉` changed words —
unless the candidate pool empties first. -/
theorem budgetedSelect_budget (τ : Nat → List Char → List Char)
    (pick : Nat → Nat) (level : ℚ) (tokens : List (List Char)) :
    ((tokens.length : ℚ) * level ≤ ((budgetedSelect τ pick level tokens).count : ℚ) ∨
      (budgetedSelect τ pick level tokens).pool = []) ∧
    (budgetedSelect τ pick level tokens).count ≤ Nat.ceil ((tokens.length : ℚ) * level) :=
  simplePerturbLoop_budget τ pick _ _ _ tokens 0 0 (by simp) (by simp)

/-- C1 counterexample: 5 tokens at level 0.24 give `perturb_target = 1.2`;
the claimed budget `round(level × token_count)` is 1, but the code keeps
attempting mutations until 2 words have changed (with a transform that always
changes its word and never exhausts the pool), so it does not stop when the
count reaches the rounded target. -/
theorem budgetedSelect_round_claim_false :
    (budgetedSelect (fun _ w => 'x' :: w) (fun _ => 0) (mkRat 6 25)
      [['a'], ['a'], ['a'], ['a'], ['a']]).count = 2 ∧
    round ((([['a'], ['a'], ['a'], ['a'], ['a']] : List (List Char)).length : ℚ) *
      mkRat 6 25) = 1 := by
  constructor
  · have ht : ((([['a'], ['a'], ['a'], ['a'], ['a']] : List (List Char)).length : ℚ)) *
        mkRat 6 25 = mkRat 6 5 := by
      rw [Rat.mkRat_eq_div, Rat.mkRat_eq_div]
      norm_num
    rw [budgetedSelect, ht]
    norm_num [simplePerturbLoop, List.range_succ, Rat.mkRat_eq_div]
  · rw [Rat.mkRat_eq_div, round_eq]
    norm_num

theorem simplePerturbLoop_attempted (τ : Nat → List Char → List Char)
    (pick : Nat → Nat) (target : ℚ) :
    ∀ (fuel : Nat) (pool : List Nat) (words : List (List Char)) (count step : Nat),
      pool.Nodup →
      (simplePerturbLoop τ pick target fuel pool words count step).attempted.Nodup ∧
      (simplePerturbLoop τ pick target fuel pool words count step).attempted.length ≤
        pool.length ∧
      ∀ a ∈ (simplePerturbLoop τ pick target fuel pool words count step).attempted,
        a ∈ pool := by
  intro fuel
  induction fuel with
  | zero =>
    intro pool words count step _
    simp [simplePerturbLoop]
  | succ n ih =>
    intro pool words count step hnd
    by_cases hlt : (count : ℚ) < target
    · by_cases hp : pool.isEmpty
      · have hpool : pool = [] := List.isEmpty_iff.mp hp
        subst hpool
        simp [simplePerturbLoop, if_pos hlt]
      · have hlen : 0 < pool.length := by
          cases pool with
          | nil => simp at hp
          | cons a l => simp
        have hj : pick step % pool.length < pool.length := Nat.mod_lt _ hlen
        have hmem : pool.getD (pick step % pool.length) 0 ∈ pool := by
          rw [List.getD_eq_getElem?_getD, List.getElem?_eq_getElem hj]
          exact List.getElem_mem hj
        have herase : (pool.erase (pool.getD (pick step % pool.length) 0)).length =
            pool.length - 1 := List.length_erase_of_mem hmem
        have hnd2 : (pool.erase (pool.getD (pick step % pool.length) 0)).Nodup :=
          hnd.erase _
        obtain ⟨ihnd, ihlen, ihsub⟩ := ih (pool.erase (pool.getD (pick step % pool.length) 0))
          (words.set (pool.getD (pick step % pool.length) 0)
            (τ step (words.getD (pool.getD (pick step % pool.length) 0) [])))
          (count + if τ step (words.getD (pool.getD (pick step % pool.length) 0) []) =
            words.getD (pool.getD (pick step % pool.length) 0) [] then 0 else 1)
          (step + 1) hnd2
        simp only [simplePerturbLoop, if_pos hlt, if_neg hp]
        refine ⟨List.nodup_cons.mpr ⟨fun hmem2 => ?_, ihnd⟩, ?_, ?_⟩
        · exact hnd.not_mem_erase (ihsub _ hmem2)
        · simp only [List.length_cons]
          omega
        · intro a ha
          rcases List.mem_cons.mp ha with h | h
          · exact h ▸ hmem
          · exact List.mem_of_mem_erase (ihsub _ h)
    · simp [simplePerturbLoop, if_neg hlt]

/-- C6: over N tokens, each candidate position is removed from the pool
before its word is attempted and is attempted at most once (the attempted
positions are pairwise distinct), and the selection loop performs at most N
iterations (one attempted position per iteration), for every sequence of
random draws and every transform outcome. -/
theorem budgetedSelect_attempts (τ : Nat → List Char → List Char)
    (pick : Nat → Nat) (level : ℚ) (tokens : List (List Char)) :
    (budgetedSelect τ pick level tokens).attempted.Nodup ∧
    (budgetedSelect τ pick level tokens).attempted.length ≤ tokens.length := by
  obtain ⟨h1, h2, _⟩ := simplePerturbLoop_attempted τ pick
    ((tokens.length : ℚ) * level) tokens.length (List.range tokens.length) tokens 0 0
    (List.nodup_range _)
  exact ⟨h1, by simpa using h2⟩

theorem simplePerturbLoop_no_iteration (τ : Nat → List Char → List Char)
    (pick : Nat → Nat) (target : ℚ) (fuel : Nat) (pool : List Nat)
    (words : List (List Char)) (count step : Nat)
    (h : ¬((count : ℚ) < target)) :
    simplePerturbLoop τ pick target fuel pool words count step =
      ⟨words, pool, count, []⟩ := by
  cases fuel <;> simp [simplePerturbLoop, h]

/-- C7: at perturbation level 0 the budget target is
`len(words) * 0 = 0`, the loop condition `0 < 0` fails immediately, no
mutation is attempted, and `simple_perturb` returns the token sequence
unchanged, for every transform outcome and every sequence of draws. -/
theorem simple_perturb_level_zero (tokens : List (List Char))
    (τ : Nat → List Char → List Char) (pick : Nat → Nat) (u : Nat → ℚ) :
    simple_perturb tokens "full-swap" 0 τ pick u = .ok tokens := by
  have hm : SimpleAttack.fromString "full-swap" = some .SWAP_FULL := rfl
  have hv : ¬¬((0 : ℚ) ≤ 0 ∧ (0 : ℚ) ≤ 1) := by norm_num
  have hloop := simplePerturbLoop_no_iteration τ pick ((tokens.length : ℚ) * 0)
    tokens.length (List.range tokens.length) tokens 0 0 (by simp)
  simp only [simple_perturb, hm, if_neg hv, budgetedSelect, hloop]
  rfl

/-- C8: with a recognized attack method, `simple_perturb` fails with
`InvalidLevel` exactly when the perturbation level lies outside the inclusive
interval [0, 1], and raises no level-validation error when 0 ≤ level ≤ 1. -/
theorem simple_perturb_invalid_level (tokens : List (List Char)) (method : String)
    (level : ℚ) (τ : Nat → List Char → List Char) (pick : Nat → Nat) (u : Nat → ℚ)
    (m : SimpleAttack) (hm : SimpleAttack.fromString method = some m) :
    simple_perturb tokens method level τ pick u = .error .invalidLevel ↔
      ¬(0 ≤ level ∧ level ≤ 1) := by
  simp only [simple_perturb, hm]
  by_cases hv : ¬(0 ≤ level ∧ level ≤ 1)
  · simp [hv]
  · by_cases hseg : m = SimpleAttack.SEGMENT <;> simp [hv, hseg]

/-- C8 witness: `perturb(text, "intrude", 1.5)` fails with `InvalidLevel`,
and `perturb(text, "intrude", 1)` does not. -/
theorem simple_perturb_invalid_level_witness :
    simple_perturb [['h', 'i']] "intrude" (mkRat 3 2) (fun _ w => w) (fun _ => 0)
        (fun _ => 0) = .error .invalidLevel ∧
      simple_perturb [['h', 'i']] "intrude" 1 (fun _ w => w) (fun _ => 0)
        (fun _ => 0) ≠ .error .invalidLevel := by
  constructor
  · exact (simple_perturb_invalid_level [['h', 'i']] "intrude" (mkRat 3 2)
      (fun _ w => w) (fun _ => 0) (fun _ => 0) .INTRUDE rfl).mpr
      (by rw [Rat.mkRat_eq_div]; norm_num)
  · intro hcontra
    have := (simple_perturb_invalid_level [['h', 'i']] "intrude" 1
      (fun _ w => w) (fun _ => 0) (fun _ => 0) .INTRUDE rfl).mp hcontra
    exact this (by norm_num)

theorem intrudeScan_fst_level_zero (u : Nat → ℚ) (punct : Char)
    (hu : ∀ n, 0 ≤ u n) :
    ∀ (k : Nat) (chars : List Char) (i step : Nat), chars.length - i ≤ k →
      (intrudeScan 0 u punct chars i step).1 = chars := by
  intro k
  induction k with
  | zero =>
    intro chars i step hk
    rw [intrudeScan, dif_neg (by omega)]
  | succ n ih =>
    intro chars i step hk
    rw [intrudeScan]
    by_cases h : i < chars.length
    · rw [dif_pos h, if_neg (not_lt.mpr (hu step))]
      exact ih chars (i + 1) (step + 1) (by omega)
    · rw [dif_neg h]

theorem intrudersLoop_level_zero (u : Nat → ℚ) (punct : Char)
    (hu : ∀ n, 0 ≤ u n) (orig : List Char) :
    ∀ (fuel : Nat) (chars : List Char) (step : Nat), chars = orig →
      intrudersLoop 0 u punct fuel orig chars step = none := by
  intro fuel
  induction fuel with
  | zero => intro chars step _; rfl
  | succ n ih =>
    intro chars step hc
    have h1 : (intrudeScan 0 u punct chars 1 step).1 = chars :=
      intrudeScan_fst_level_zero u punct hu (chars.length - 1) chars 1 step le_rfl
    simp only [intrudersLoop]
    rw [h1, hc, if_pos rfl]
    exact ih _ _ rfl

/-- C9: the retry-until-changed loop of `intruders` has no upper bound: at
per-gap insertion probability 0 (every uniform draw is ≥ 0, so never < 0),
a word that is not a punctuation substring and has length ≥ 3 never receives
an insertion in a scan, so the loop never exits — for every fuel bound the
fueled loop is still running (`none`). -/
theorem intruders_nonterminating (word : List Char) (u : Nat → ℚ) (punct : Char)
    (fuel : Nat) (hu : ∀ n, 0 ≤ u n)
    (hpunct : isSubstringOf word punctuationChars = false)
    (hlen : 3 ≤ word.length) :
    intruders word 0 u punct fuel = none := by
  rw [intruders, if_neg (by simp [hpunct]; omega), if_neg (by omega)]
  exact intrudersLoop_level_zero u punct hu word fuel word 0 rfl

/-- C9 witness: with all-zero uniform draws and level 0, `intruders` on
"abc" never terminates, for the concrete fuel bound 5. -/
theorem intruders_nonterminating_witness :
    intruders ['a', 'b', 'c'] 0 (fun _ => 0) '!' 5 = none :=
  intruders_nonterminating ['a', 'b', 'c'] (fun _ => 0) '!' 5
    (fun _ => le_refl 0) (by decide) (by decide)

/-- C2 (code bug): with the keyboard table `{h ↦ [g, j]}` (lowercase keys,
per the spec's table format), probability 1, `random.random() = 0` and
character position 0, the claim says the lookup of 'H' is case-insensitive,
so 'h' is found and the character is replaced (with its case preserved);
the code instead tests `char in NN` without lowering — 'H' is not a key —
and returns "Hello" unchanged.  (Moreover the case-restoring statement
`word[i].upper()` in the source discards its result.) -/
theorem key_case_insensitive_claim_fails :
    key NNexample ['H', 'e', 'l', 'l', 'o'] 1 0 0 0 = ['H', 'e', 'l', 'l', 'o'] ∧
      NNexample (Char.toLower 'H') = some ['g', 'j'] := by
  constructor
  · decide
  · decide

/-- C10: inside `simple_perturb`'s dispatch, `key` and `natural` are invoked
without an application-probability argument, so their probability gate runs
at the default 1.0 and always passes (`random.random() < 1`); for every
selected word, the only way these two transforms leave the word unchanged is
a failed table lookup — the whole word absent from the natural-typo table,
or the picked character absent (as-is) from the keyboard table — never the
random gate; and the perturbation level plays no role in their results.
The table hypotheses are modelled from the spec (the resource files are not
among the sources): keys are lowercase characters, and a candidate list never
contains its own key (adjacent keys / misspellings differ from the
original). -/
theorem typo_transforms_default_gate (NN : Char → Option (List Char))
    (typos : List Char → Option (List (List Char))) (o : RandDraws)
    (level : ℚ) (word : List Char)
    (_hr0 : 0 ≤ o.rr) (hr1 : o.rr < 1) (hw : word ≠ [])
    (hNNkeys : ∀ c l, NN c = some l → c.toLower = c)
    (hNNproper : ∀ c l, NN c = some l → l ≠ [] ∧ c ∉ l)
    (htyproper : ∀ w l, typos w = some l → l ≠ [] ∧ w ∉ l) :
    dispatch NN typos o .TYPO_KEYBOARD level word =
      some (key NN word 1 o.rr o.ipick o.npick) ∧
    dispatch NN typos o .TYPO_NATURAL level word =
      some (natural typos word 1 o.rr o.npick) ∧
    (key NN word 1 o.rr o.ipick o.npick = word ↔
      NN (word.getD (o.ipick % word.length) ' ') = none) ∧
    (natural typos word 1 o.rr o.npick = word ↔ typos word = none) := by
  have hgate : ¬(o.rr > 1) := not_lt.mpr (le_of_lt (lt_of_lt_of_le hr1 (by norm_num)))
  have hlen : 0 < word.length := List.length_pos.mpr hw
  have hi : o.ipick % word.length < word.length := Nat.mod_lt _ hlen
  refine ⟨rfl, rfl, ?_, ?_⟩
  · simp only [key, if_neg hgate, if_neg (by omega : ¬word.length = 0)]
    cases hnn : NN (word.getD (o.ipick % word.length) ' ') with
    | none => simp
    | some lst =>
      simp only []
      have hkey := hNNkeys _ _ hnn
      have hproper := hNNproper _ _ hnn
      rw [hkey, hnn]
      simp only [Option.getD_some]
      constructor
      · intro heq
        exfalso
        have hlst : 0 < lst.length := List.length_pos.mpr hproper.1
        have hrepl : lst.getD (o.npick % lst.length) ' ' ∈ lst := by
          rw [List.getD_eq_getElem?_getD,
            List.getElem?_eq_getElem (Nat.mod_lt _ hlst)]
          exact List.getElem_mem _
        obtain ⟨idx, hidx, hieq⟩ : ∃ idx, idx < word.length ∧
            idx = o.ipick % word.length := ⟨o.ipick % word.length, hi, rfl⟩
        rw [← hieq] at heq hnn hproper
        have h2 : word[idx]? = some (lst.getD (o.npick % lst.length) ' ') := by
          conv_lhs => rw [← heq]
          rw [List.getElem?_set_self hidx]
        have hchar : word.getD idx ' ' = lst.getD (o.npick % lst.length) ' ' := by
          rw [List.getD_eq_getElem?_getD, h2]
          rfl
        exact hproper.2 (by rw [hchar]; exact hrepl)
      · intro hcontra
        exact absurd hcontra (by simp)
  · simp only [natural, if_neg hgate]
    cases hty : typos word with
    | none => simp
    | some lst =>
      simp only []
      have hproper := htyproper _ _ hty
      constructor
      · intro heq
        exfalso
        have hlst : 0 < lst.length := List.length_pos.mpr hproper.1
        have hrepl : lst.getD (o.npick % lst.length) [] ∈ lst := by
          rw [List.getD_eq_getElem?_getD,
            List.getElem?_eq_getElem (Nat.mod_lt _ hlst)]
          exact List.getElem_mem _
        rw [heq] at hrepl
        exact hproper.2 hrepl
      · intro hcontra
        exact absurd hcontra (by simp)

/-- C10 witness: the spec-modelled one-entry tables; with all draws 0, the
keyboard typo changes "hat" exactly because 'h' is found, and the natural
typo changes "the" exactly because "the" is found. -/
theorem typo_transforms_default_gate_witness :
    (dispatch NNexample typosExample ⟨0, 0, 0, [], '!', fun _ => 0, 0⟩ .TYPO_KEYBOARD 0
        ['h', 'a', 't'] = some (key NNexample ['h', 'a', 't'] 1 0 0 0) ∧
      dispatch NNexample typosExample ⟨0, 0, 0, [], '!', fun _ => 0, 0⟩ .TYPO_NATURAL 0
        ['h', 'a', 't'] = some (natural typosExample ['h', 'a', 't'] 1 0 0) ∧
      (key NNexample ['h', 'a', 't'] 1 0 0 0 = ['h', 'a', 't'] ↔
        NNexample (['h', 'a', 't'].getD (0 % (['h', 'a', 't'] : List Char).length) ' ') =
          none) ∧
      (natural typosExample ['h', 'a', 't'] 1 0 0 = ['h', 'a', 't'] ↔
        typosExample ['h', 'a', 't'] = none)) := by
  have hkeys : ∀ c l, NNexample c = some l → c.toLower = c := by
    intro c l h
    by_cases hc : c = 'h'
    · subst hc; decide
    · simp [NNexample, hc] at h
  have hproper : ∀ c l, NNexample c = some l → l ≠ [] ∧ c ∉ l := by
    intro c l h
    by_cases hc : c = 'h'
    · subst hc
      have hl : l = ['g', 'j'] := by simpa [NNexample] using h.symm
      subst hl
      decide
    · simp [NNexample, hc] at h
  have htyproper : ∀ w l, typosExample w = some l → l ≠ [] ∧ w ∉ l := by
    intro w l h
    by_cases hw : w = ['t', 'h', 'e']
    · subst hw
      have hl : l = [['t', 'e', 'h']] := by simpa [typosExample] using h.symm
      subst hl
      decide
    · simp [typosExample, hw] at h
  exact typo_transforms_default_gate NNexample typosExample
    ⟨0, 0, 0, [], '!', fun _ => 0, 0⟩ 0 ['h', 'a', 't'] (le_refl 0) (by norm_num)
    (by decide) hkeys hproper htyproper
